import Mathlib

/-!
Verification of the hybrid item-search service (FastAPI backend).

The development shallowly embeds the code of `backend/main.py` (hybrid
search and ranking in `search_items`), `backend/embeddings.py`
(`create_searchable_text`, `format_query_for_embedding`) and
`backend/polling_service.py` (`update_items_and_prices`) into Lean.
Floating point scores are modelled by rationals, SQL rows by lists of
records, and the database session by explicit state passing.
-/

/-! ### String primitives (Python `lower`, `strip`, `in`, `split`) -/

/-- Python `str.lower()`, restricted to the ASCII case mapping. -/
def pyLower (s : String) : String := ⟨s.data.map Char.toLower⟩

/-- Split a character list at every separator character (Python's
`str.split` keeps empty segments between adjacent separators; they are
filtered out by the length test downstream). -/
def splitChars (p : Char → Bool) : List Char → List (List Char)
  | [] => [[]]
  | c :: rest =>
    match splitChars p rest with
    | [] => [[c]]
    | w :: ws => if p c then [] :: w :: ws else (c :: w) :: ws

/-- `pre` is a leading segment of `s` (Python `str.startswith`). -/
def strStarts (s pre : String) : Bool := pre.data.isPrefixOf s.data

/-- Drop the first `n` characters (Python slicing `s[n:]`). -/
def strDrop (s : String) (n : ℕ) : String := ⟨s.data.drop n⟩

/-- Python's `needle in hay` substring test on character lists:
`occursIn n h` is true iff `n` occurs contiguously inside `h`. -/
def occursIn : List Char → List Char → Bool
  | needle, [] => needle.isEmpty
  | needle, c :: t => needle.isPrefixOf (c :: t) || occursIn needle t

/-- Python's `needle in hay` substring test on strings. -/
def strIn (needle hay : String) : Bool := occursIn needle.data hay.data

/-- Strip leading and trailing whitespace from a character list
(Python `str.strip()` with the common ASCII whitespace class). -/
def stripChars (l : List Char) : List Char :=
  ((l.dropWhile Char.isWhitespace).reverse.dropWhile Char.isWhitespace).reverse

/-- Python `str.strip()` on strings. -/
def pyStrip (s : String) : String := ⟨stripChars s.data⟩

/-! ### Query tokenization (`search_items`, main.py lines 179-180)

`query_lower = search_query.query.lower()` and
`query_words = set(word for word in query_lower.split() if len(word) > 1)`.
Iteration order over the Python set never matters below (only counts and
universally quantified tests are taken), so the set is modelled as a
deduplicated list. -/

/-- The set of lowercase query words of length greater than one,
as a duplicate-free list. -/
def queryWords (q : String) : List String :=
  (((splitChars (fun c => c.isWhitespace) (pyLower q).data).map String.mk).filter
    fun w => 1 < w.length).dedup

/-- `matching_words`: how many query words occur in the lowercased name
(main.py line 238). -/
def matchingWords (q name : String) : ℕ :=
  (queryWords q).countP fun w => strIn w (pyLower name)

/-! ### Blended scoring (main.py lines 232-262) -/

/-- `keyword_score` from main.py lines 243-251. -/
def keywordScore (q name : String) : ℚ :=
  if strIn (pyLower q) (pyLower name) || strIn (pyLower name) (pyLower q) then 1/2
  else if 0 < matchingWords q name then
    (1/5) * ((matchingWords q name : ℚ) / ((queryWords q).length : ℚ))
  else 0

/-- `combined_score` from main.py lines 253-262: 70/30 blend of the
semantic similarity with the keyword score, then the substring /
all-words boosts capped at 1. -/
def combinedScore (q : String) (sim : ℚ) (name : String) : ℚ :=
  let base := sim * (7/10) + keywordScore q name * (3/10)
  if strIn (pyLower q) (pyLower name) then min 1 (base + 3/20)
  else if matchingWords q name = (queryWords q).length ∧ 0 < (queryWords q).length then
    min 1 (base + 1/10)
  else base

/-! ### Specification-side restatement of the scoring formula (claim C1)

These definitions follow the wording of the specification: the query
token set is a finite set `Q`, `matching` is the cardinality of the
subset of `Q` whose members occur in the lowercased name. -/

/-- The spec's query token set `Q`. -/
def querySet (q : String) : Finset String :=
  (((splitChars (fun c => c.isWhitespace) (pyLower q).data).map String.mk).filter
    fun w => 1 < w.length).toFinset

/-- The spec's `matching`, a cardinality over the token set. -/
def specMatching (q name : String) : ℕ :=
  ((querySet q).filter fun w => strIn w (pyLower name) = true).card

/-- The spec's keyword score. -/
def specKeywordScore (q name : String) : ℚ :=
  if strIn (pyLower q) (pyLower name) = true ∨ strIn (pyLower name) (pyLower q) = true then 1/2
  else if 0 < specMatching q name ∧ 0 < (querySet q).card then
    (1/5) * ((specMatching q name : ℚ) / ((querySet q).card : ℚ))
  else 0

/-- The spec's blended score with boosts. -/
def specCombinedScore (q : String) (sim : ℚ) (name : String) : ℚ :=
  let c := sim * (7/10) + specKeywordScore q name * (3/10)
  if strIn (pyLower q) (pyLower name) = true then min 1 (c + 3/20)
  else if specMatching q name = (querySet q).card ∧ 0 < (querySet q).card then min 1 (c + 1/10)
  else c

/-! ### Candidate rows and the dedup merge (main.py lines 214-228)

A candidate row carries the selected item columns together with the
cosine similarity computed by the SQL query. -/

/-- The item columns shared by candidate rows and stored items. -/
structure ItemData where
  item_id : Int
  name : String
  examine : Option String
  members : Bool
  lowalch : Option Int
  highalch : Option Int
  limit : Option Int
  value : Option Int
  icon : Option String
deriving DecidableEq

/-- A candidate row returned by the vector or the keyword query. -/
structure Row extends ItemData where
  similarity : ℚ
deriving DecidableEq

/-- The dedup loop body: appends each row whose `item_id` was not seen
yet, recording seen ids (main.py lines 219-228). -/
def addRows : List Row → List Int × List Row → List Int × List Row
  | [], acc => acc
  | r :: rs, (seen, acc) =>
    if r.item_id ∈ seen then addRows rs (seen, acc)
    else addRows rs (seen ++ [r.item_id], acc ++ [r])

/-- Merge vector candidates first, then keyword candidates not already
present (main.py lines 214-228). -/
def mergeRows (vrows krows : List Row) : List Row :=
  (addRows krows (addRows vrows ([], []))).2

/-! ### Scoring, sorting and truncation (main.py lines 230-281) -/

/-- A scored result: the originating row plus the blended score, which is
also the `similarity` echoed in the response. -/
structure Scored where
  row : Row
  score : ℚ
deriving DecidableEq

/-- Score one merged candidate (main.py lines 232-277). -/
def scoreRow (q : String) (r : Row) : Scored :=
  { row := r, score := combinedScore q r.similarity r.name }

/-- Score the merged candidate list in order. -/
def scoreRows (q : String) (rows : List Row) : List Scored :=
  rows.map (scoreRow q)

/-- The descending-score order used by
`scored_results.sort(key=lambda x: x[0], reverse=True)`. -/
def scoredLE (a b : Scored) : Prop := b.score ≤ a.score

instance : DecidableRel scoredLE := fun a b => inferInstanceAs (Decidable (b.score ≤ a.score))

instance : IsTotal Scored scoredLE := ⟨fun a b => le_total b.score a.score⟩

instance : IsTrans Scored scoredLE := ⟨fun _ _ _ h1 h2 => le_trans h2 h1⟩

/-- Python's `list.sort` is a stable sort; with `reverse=True` it keeps
the original order of equal keys while sorting keys descending.
`List.insertionSort` with the descending order is exactly that stable
sort. -/
def sortScored (l : List Scored) : List Scored := l.insertionSort scoredLE

/-- The full ranking pipeline of `search_items` after the two candidate
queries: dedup-merge, score, stable sort descending, truncate to the
requested limit (main.py lines 214-281). -/
def searchResults (q : String) (vrows krows : List Row) (lim : ℕ) : List Scored :=
  (sortScored (scoreRows q (mergeRows vrows krows))).take lim

/-! ### Stored items and the two candidate queries (main.py lines 143-212)

The `game_items` table is a list of stored items; `embedding` is the
nullable vector column. The cosine distance operator `<=>` of pgvector
is an external function and enters the model as a parameter. -/

/-- A row of the `game_items` table. -/
structure StoredItem extends ItemData where
  embedding : Option (List ℚ)
deriving DecidableEq

/-- The optional `members = :members_only` filter. -/
def membersOk (membersOnly : Option Bool) (it : StoredItem) : Bool :=
  match membersOnly with
  | none => true
  | some b => it.members == b

/-- The selected columns of one candidate row:
`1 - (embedding <=> query)` is the similarity. Items with a NULL
embedding produce no row (the `embedding IS NOT NULL` clause). -/
def rowOfItem (dist : List ℚ → List ℚ → ℚ) (qEmb : List ℚ) (it : StoredItem) : Option Row :=
  it.embedding.map fun e => { toItemData := it.toItemData, similarity := 1 - dist e qEmb }

/-- The `ORDER BY embedding <=> query` order: ascending distance, i.e.
descending similarity. -/
def rowSimGE (a b : Row) : Prop := b.similarity ≤ a.similarity

instance : DecidableRel rowSimGE := fun a b => inferInstanceAs (Decidable (b.similarity ≤ a.similarity))

/-- The vector candidate query (main.py lines 143-176): filter NULL
embeddings and the members flag, order by distance, limit to
`min(limit*3, 100)` candidates. -/
def vectorCandidates (dist : List ℚ → List ℚ → ℚ) (qEmb : List ℚ) (db : List StoredItem)
    (membersOnly : Option Bool) (lim : ℕ) : List Row :=
  ((db.filterMap fun it =>
    if membersOk membersOnly it then rowOfItem dist qEmb it else none).insertionSort
      rowSimGE).take (min (lim * 3) 100)

/-- The keyword candidate query (main.py lines 184-212): only issued when
there are query words; filters NULL embeddings, one case-insensitive
`ILIKE %word%` condition per query word, the members flag, limit 50. -/
def keywordCandidates (dist : List ℚ → List ℚ → ℚ) (qEmb : List ℚ) (db : List StoredItem)
    (membersOnly : Option Bool) (q : String) : List Row :=
  if queryWords q = [] then []
  else
    (db.filterMap fun it =>
      if membersOk membersOnly it &&
         (queryWords q).all (fun w => strIn w (pyLower it.name)) then
        rowOfItem dist qEmb it
      else none).take 50

/-- The whole search endpoint after query embedding: both candidate
queries followed by the ranking pipeline. -/
def fullSearch (dist : List ℚ → List ℚ → ℚ) (qEmb : List ℚ) (db : List StoredItem)
    (membersOnly : Option Bool) (q : String) (lim : ℕ) : List Scored :=
  searchResults q (vectorCandidates dist qEmb db membersOnly lim)
    (keywordCandidates dist qEmb db membersOnly q) lim

/-! ### Text formatting (embeddings.py lines 100-165) -/

/-- `create_searchable_text`: canonical indexable text of an item. -/
def createSearchableText (f : ItemData) : String :=
  let parts :=
    (if f.name ≠ "" then ["Item Name: " ++ f.name] else []) ++
    (match f.examine with
     | some e => if e ≠ "" then ["Description: " ++ e] else []
     | none => []) ++
    (if f.members then ["Members only item"] else [])
  String.intercalate " | " parts

/-- `format_query_for_embedding` (embeddings.py lines 127-165). -/
def formatQueryForEmbedding (q : String) : String :=
  let cleaned := pyStrip q
  if strStarts (pyLower cleaned) "description:" then
    let t := pyStrip (strDrop cleaned 12)
    if t ≠ "" then "Description: " ++ t else "Item Name: "
  else if strStarts (pyLower cleaned) "item name:" then
    let t := pyStrip (strDrop cleaned 10)
    if t ≠ "" then "Item Name: " ++ t else "Item Name: "
  else "Item Name: " ++ cleaned

/-- The spec's description of `format_query`, written after its words:
trim; on a case-insensitive description prefix wrap the stripped
remainder as a description, falling back to the empty item-name form; on
a case-insensitive item-name prefix the same under the item-name form;
otherwise wrap the whole trimmed query as an item name. -/
def specFormatQuery (q : String) : String :=
  let trimmed := pyStrip q
  let lowered := pyLower trimmed
  if strStarts lowered "description:" then
    let rest := pyStrip (strDrop trimmed "description:".length)
    if rest = "" then "Item Name: " else "Description: " ++ rest
  else if strStarts lowered "item name:" then
    let rest := pyStrip (strDrop trimmed "item name:".length)
    if rest = "" then "Item Name: " else "Item Name: " ++ rest
  else "Item Name: " ++ trimmed

/-! ### The ingestion cycle (polling_service.py `update_items_and_prices`)

Upstream data enters as a catalog mapping list and a price map; the
database is a list of stored items plus an append-only list of price
rows. The embedding provider enters as a function `embedFn` from text to
vector together with a per-batch success flag `batchOk` (a failed batch
raises inside `embed_texts` and is caught, polling_service.py lines
182-195). -/

/-- One catalog mapping entry as consumed by the cycle: `get("id")` may
be absent, the other fields are read with the defaults of
polling_service.py lines 140-149. -/
structure MapEntry where
  id : Option Int
  name : String
  examine : Option String
  members : Bool
  lowalch : Option Int
  highalch : Option Int
  limit : Option Int
  value : Option Int
  icon : Option String
deriving DecidableEq

/-- One price observation: either price may be absent. -/
structure PriceInfo where
  high : Option Int
  low : Option Int
deriving DecidableEq

/-- An appended `price_history` row (timestamps are not modelled). -/
structure PriceRow where
  item_id : Int
  high_price : Option Int
  low_price : Option Int
deriving DecidableEq

/-- Price lookup, `item_id in prices_data` / `prices_data[item_id]`. -/
def lookupPrice (prices : List (Int × PriceInfo)) (i : Int) : Option PriceInfo :=
  (prices.find? fun p => p.1 == i).map (·.2)

/-- `db.query(Item).filter(Item.item_id == item_id).first()`. -/
def findItem (db : List StoredItem) (i : Int) : Option StoredItem :=
  db.find? fun it => it.item_id == i

/-- The `item_dict` built at polling_service.py lines 140-149. -/
def entryData (m : MapEntry) (i : Int) : ItemData :=
  { item_id := i, name := m.name, examine := m.examine, members := m.members,
    lowalch := m.lowalch, highalch := m.highalch, limit := m.limit,
    value := m.value, icon := m.icon }

/-- The skip conditions of the first pass (lines 118-133): a falsy id,
no price entry, or a price entry with both prices absent. -/
def pricedOf (prices : List (Int × PriceInfo)) (m : MapEntry) : Option (ItemData × PriceInfo) :=
  match m.id with
  | none => none
  | some i =>
    if i = 0 then none
    else
      match lookupPrice prices i with
      | none => none
      | some p =>
        if p.high = none ∧ p.low = none then none
        else some (entryData m i, p)

/-- `needs_embedding` (lines 154-160): no stored item, or the name or
the examine text differs. -/
def needsEmbOf (db : List StoredItem) (f : ItemData) : Bool :=
  match findItem db f.item_id with
  | none => true
  | some it => decide (it.name ≠ f.name ∨ it.examine ≠ f.examine)

/-- One processed entry of the cycle: the prepared fields, its price
info, the captured existing row, the re-embedding flag, and — once the
embedding phase ran — the value of the optional `embedding` key of
`item_dict` (`none` while the key is absent, `some none` after a failed
batch, `some (some v)` on success). -/
structure ProcEntry where
  fields : ItemData
  price : PriceInfo
  existing : Option StoredItem
  needsEmb : Bool
  emb : Option (Option (List ℚ))
deriving DecidableEq

/-- The first pass over one mapping entry. -/
def procOf (db : List StoredItem) (prices : List (Int × PriceInfo)) (m : MapEntry) :
    Option ProcEntry :=
  (pricedOf prices m).map fun fp =>
    { fields := fp.1, price := fp.2, existing := findItem db fp.1.item_id,
      needsEmb := needsEmbOf db fp.1, emb := none }

/-- The first pass (polling_service.py lines 117-167): keep the priced
entries in catalog order. -/
def firstPass (db : List StoredItem) (prices : List (Int × PriceInfo))
    (mapping : List MapEntry) : List ProcEntry :=
  mapping.filterMap (procOf db prices)

/-- The priced entries of a cycle, independent of database state. -/
def pricedList (mapping : List MapEntry) (prices : List (Int × PriceInfo)) :
    List (ItemData × PriceInfo) :=
  mapping.filterMap (pricedOf prices)

/-- The item ids of the priced entries. -/
def pricedIds (mapping : List MapEntry) (prices : List (Int × PriceInfo)) : List Int :=
  (pricedList mapping prices).map (·.1.item_id)

/-- The embedding computed for the entry at position `p` of the
needs-embedding list: batches of 500, a failed batch yields no vector
(lines 169-195). -/
def embFor (batchOk : ℕ → Bool) (embedFn : String → List ℚ) (p : ℕ) (text : String) :
    Option (List ℚ) :=
  if batchOk (p / 500) then some (embedFn text) else none

/-- The embedding phase: entries flagged as needing re-embedding receive,
in order, the batched embedding result (`some none` when their batch
failed); other entries keep the `embedding` key absent. -/
def assignEmb (batchOk : ℕ → Bool) (embedFn : String → List ℚ) :
    ℕ → List ProcEntry → List ProcEntry
  | _, [] => []
  | p, e :: es =>
    if e.needsEmb then
      { e with emb := some (embFor batchOk embedFn p (createSearchableText e.fields)) } ::
        assignEmb batchOk embedFn (p + 1) es
    else e :: assignEmb batchOk embedFn p es

/-- The in-place update of an existing row (lines 203-208): every
`item_dict` key except `item_id` is assigned; the `embedding` attribute
is only touched when the key is present. -/
def updItem (it : StoredItem) (e : ProcEntry) : StoredItem :=
  { toItemData := { e.fields with item_id := it.item_id },
    embedding := match e.emb with | none => it.embedding | some v => v }

/-- A newly inserted row (lines 210-213): the `embedding` column defaults
to NULL when the key is absent. -/
def newItem (e : ProcEntry) : StoredItem :=
  { toItemData := e.fields, embedding := e.emb.join }

/-- Replace the first row with the given id (the ORM mutation of the
captured `existing_item`). -/
def updateFirst (db : List StoredItem) (i : Int) (f : StoredItem → StoredItem) :
    List StoredItem :=
  match db with
  | [] => []
  | it :: rest => if it.item_id = i then f it :: rest else it :: updateFirst rest i f

/-- The persisting step for one entry (lines 198-213). -/
def applyEntry (db : List StoredItem) (e : ProcEntry) : List StoredItem :=
  match e.existing with
  | some _ => updateFirst db e.fields.item_id fun it => updItem it e
  | none => db ++ [newItem e]

/-- The appended price history row for one entry (lines 216-223). -/
def priceRow (e : ProcEntry) : PriceRow :=
  { item_id := e.fields.item_id, high_price := e.price.high, low_price := e.price.low }

/-- The stored row an entry ends up as after the cycle. -/
def finalItem (e : ProcEntry) : StoredItem :=
  match e.existing with
  | some it => updItem it e
  | none => newItem e

/-- The embedding value an entry's stored row ends up with. -/
def embResult (e : ProcEntry) : Option (List ℚ) :=
  match e.existing, e.emb with
  | some it, none => it.embedding
  | some _, some v => v
  | none, ov => ov.join

/-- One full diff-embed-persist pass (lines 104-226): returns the new
item table and the appended price rows. -/
def runCycle (batchOk : ℕ → Bool) (embedFn : String → List ℚ) (mapping : List MapEntry)
    (prices : List (Int × PriceInfo)) (db : List StoredItem) :
    List StoredItem × List PriceRow :=
  let entries := assignEmb batchOk embedFn 0 (firstPass db prices mapping)
  (entries.foldl applyEntry db, entries.map priceRow)

/-- `update_items_and_prices` (lines 82-239): an empty mapping fetch or
an empty price fetch aborts the cycle before any state change. -/
def updateItemsAndPrices (batchOk : ℕ → Bool) (embedFn : String → List ℚ)
    (mapping : List MapEntry) (prices : List (Int × PriceInfo)) (db : List StoredItem) :
    List StoredItem × List PriceRow :=
  if mapping = [] then (db, [])
  else if prices = [] then (db, [])
  else runCycle batchOk embedFn mapping prices db
/-- The database-independent data of a processed entry together with the
diff results (everything except the assigned embedding). -/
def procCore (e : ProcEntry) : ItemData × PriceInfo × Option StoredItem × Bool :=
  (e.fields, e.price, e.existing, e.needsEmb)

lemma querySet_card (q : String) : (querySet q).card = (queryWords q).length :=
  List.card_toFinset _

lemma specMatching_eq (q name : String) : specMatching q name = matchingWords q name := by
  have h0 : ((((splitChars (fun c => c.isWhitespace) (pyLower q).data).map String.mk).filter
      fun w => 1 < w.length)).toFinset.filter (fun w => strIn w (pyLower name) = true)
      = ((queryWords q).filter fun w => strIn w (pyLower name)).toFinset := by
    rw [queryWords, List.toFinset_filter]
    ext a
    simp
  have h1 : ((queryWords q).filter fun w => strIn w (pyLower name)).Nodup :=
    (List.nodup_dedup _).filter _
  rw [specMatching, querySet, h0, List.card_toFinset, h1.dedup]
  rw [matchingWords, List.countP_eq_length_filter]

lemma matchingWords_le (q name : String) :
    matchingWords q name ≤ (queryWords q).length :=
  List.countP_le_length _

/-- C1. For every merged candidate the blended score is computed exactly
by the spec's formula: the keyword score is 0.5 on a substring match in
either direction, else proportional to the fraction of matched query
tokens, else 0; the combination is `semantic*0.7 + keyword*0.3`; the
substring boost of 0.15, else the all-tokens boost of 0.10, is applied
capped at 1. -/
theorem combinedScore_eq_spec (q : String) (sim : ℚ) (name : String) :
    combinedScore q sim name = specCombinedScore q sim name := by
  have hm := specMatching_eq q name
  have hc := querySet_card q
  have hkw : keywordScore q name = specKeywordScore q name := by
    rw [keywordScore, specKeywordScore, hm, hc]
    congr 1
    · simp
    · have hle := matchingWords_le q name
      rcases Nat.eq_zero_or_pos (matchingWords q name) with h | h
      · simp [h]
      · have : 0 < (queryWords q).length := lt_of_lt_of_le h hle
        simp [h, this]
  rw [combinedScore, specCombinedScore, hm, hc, hkw]

/-! ### Bounds on the scoring function -/

lemma keywordScore_nonneg (q name : String) : 0 ≤ keywordScore q name := by
  unfold keywordScore
  split_ifs with h1 h2
  · norm_num
  · positivity
  · exact le_refl 0

lemma keywordScore_le_half (q name : String) : keywordScore q name ≤ 1/2 := by
  unfold keywordScore
  split_ifs with h1 h2
  · exact le_refl _
  · have hm := matchingWords_le q name
    have hL : (0 : ℚ) < ((queryWords q).length : ℚ) := by
      exact_mod_cast lt_of_lt_of_le h2 hm
    have hd : (matchingWords q name : ℚ) / ((queryWords q).length : ℚ) ≤ 1 := by
      rw [div_le_one hL]
      exact_mod_cast hm
    linarith
  · norm_num

lemma combinedScore_nonneg (q name : String) {sim : ℚ} (h0 : 0 ≤ sim) :
    0 ≤ combinedScore q sim name := by
  have hkw := keywordScore_nonneg q name
  have hbase : 0 ≤ sim * (7/10) + keywordScore q name * (3/10) := by positivity
  unfold combinedScore
  split_ifs
  · exact le_min (by norm_num) (by linarith)
  · exact le_min (by norm_num) (by linarith)
  · exact hbase

lemma base_le_085 (q name : String) {sim : ℚ} (h1 : sim ≤ 1) :
    sim * (7/10) + keywordScore q name * (3/10) ≤ 17/20 := by
  have hkw := keywordScore_le_half q name
  linarith

lemma combinedScore_le_one (q name : String) {sim : ℚ} (h1 : sim ≤ 1) :
    combinedScore q sim name ≤ 1 := by
  have hb := base_le_085 q name h1
  unfold combinedScore
  split_ifs
  · exact min_le_left _ _
  · exact min_le_left _ _
  · linarith

/-- C2. Boost precedence at equal semantic similarity: a substring match
(`query_in_name`) scores strictly above a candidate with no substring
match in either direction and no matching token, and at least as high as
any candidate without a matching token. -/
theorem boostPrecedence (q nameA nameB : String) (s : ℚ) (h0 : 0 ≤ s) (h1 : s ≤ 1) :
    (strIn (pyLower q) (pyLower nameA) = true →
     strIn (pyLower q) (pyLower nameB) = false →
     strIn (pyLower nameB) (pyLower q) = false →
     matchingWords q nameB = 0 →
     combinedScore q s nameB < combinedScore q s nameA) ∧
    (strIn (pyLower q) (pyLower nameA) = true →
     matchingWords q nameB = 0 →
     combinedScore q s nameB ≤ combinedScore q s nameA) := by
  have hL : ¬(0 = (queryWords q).length ∧ 0 < (queryWords q).length) := by omega
  constructor
  · intro hA hB1 hB2 hB3
    simp [combinedScore, keywordScore, hA, hB1, hB2, hB3, hL]
    constructor <;> linarith
  · intro hA hB3
    cases hqB : strIn (pyLower q) (pyLower nameB)
    · cases hnB : strIn (pyLower nameB) (pyLower q)
      · simp [combinedScore, keywordScore, hA, hqB, hnB, hB3, hL]
        constructor <;> linarith
      · simp [combinedScore, keywordScore, hA, hqB, hnB, hB3, hL]
        constructor <;> linarith
    · simp [combinedScore, keywordScore, hA, hqB]

/-- C3. The final result list is the stable descending sort of the scored
merged candidates truncated to the limit: at most `lim` results, the
output is exactly the truncated sort, the sort is a permutation of the
scored merged list, sorted by score descending, and any correctly
ordered pair of the merge order — in particular any tie — keeps its
relative order. -/
theorem sortTruncate (q : String) (vrows krows : List Row) (lim : ℕ) :
    (searchResults q vrows krows lim).length ≤ lim ∧
    searchResults q vrows krows lim =
      (sortScored (scoreRows q (mergeRows vrows krows))).take lim ∧
    (sortScored (scoreRows q (mergeRows vrows krows))).Perm
      (scoreRows q (mergeRows vrows krows)) ∧
    (sortScored (scoreRows q (mergeRows vrows krows))).Pairwise scoredLE ∧
    ∀ a b, List.Sublist [a, b] (scoreRows q (mergeRows vrows krows)) → scoredLE a b →
      List.Sublist [a, b] (sortScored (scoreRows q (mergeRows vrows krows))) := by
  refine ⟨?_, rfl, List.perm_insertionSort scoredLE _, List.sorted_insertionSort scoredLE _, ?_⟩
  · exact List.length_take_le _ _
  · intro a b h hr
    exact List.pair_sublist_insertionSort hr h

/-! ### The dedup merge, characterized -/

lemma addRows_eq (rs : List Row) (seen : List Int) (acc : List Row)
    (h : (rs.map (·.item_id)).Nodup) :
    addRows rs (seen, acc) =
      (seen ++ (rs.filter fun r => decide (r.item_id ∉ seen)).map (·.item_id),
       acc ++ rs.filter fun r => decide (r.item_id ∉ seen)) := by
  induction rs generalizing seen acc with
  | nil => simp [addRows]
  | cons r rest ih =>
    rw [List.map_cons, List.nodup_cons] at h
    by_cases hmem : r.item_id ∈ seen
    · rw [addRows, if_pos hmem, ih seen acc h.2]
      have hfilter : ((r :: rest).filter fun x => decide (x.item_id ∉ seen)) =
          (rest.filter fun x => decide (x.item_id ∉ seen)) := by
        rw [List.filter_cons]
        simp [hmem]
      rw [hfilter]
    · rw [addRows, if_neg hmem, ih _ _ h.2]
      have hcong : (rest.filter fun x => decide (x.item_id ∉ seen ++ [r.item_id])) =
          (rest.filter fun x => decide (x.item_id ∉ seen)) := by
        apply List.filter_congr
        intro x hx
        have hne : x.item_id ≠ r.item_id := by
          intro he
          exact h.1 (he ▸ List.mem_map_of_mem (·.item_id) hx)
        simp [List.mem_append, hne]
      rw [hcong]
      have hkeep : ((r :: rest).filter fun x => decide (x.item_id ∉ seen)) =
          r :: (rest.filter fun x => decide (x.item_id ∉ seen)) := by
        rw [List.filter_cons]
        simp [hmem]
      rw [hkeep]
      simp

lemma mergeRows_eq (vrows krows : List Row)
    (hv : (vrows.map (·.item_id)).Nodup) (hk : (krows.map (·.item_id)).Nodup) :
    mergeRows vrows krows =
      vrows ++ krows.filter fun r => decide (r.item_id ∉ vrows.map (·.item_id)) := by
  have h1 : addRows vrows ([], []) = (vrows.map (·.item_id), vrows) := by
    rw [addRows_eq vrows [] [] hv]
    simp
  rw [mergeRows, h1, addRows_eq krows _ _ hk]

lemma mergeRows_subset (vrows krows : List Row) :
    ∀ r ∈ mergeRows vrows krows, r ∈ vrows ++ krows := by
  have key : ∀ (rs : List Row) (seen : List Int) (acc : List Row),
      ∀ r ∈ (addRows rs (seen, acc)).2, r ∈ acc ++ rs := by
    intro rs
    induction rs with
    | nil => intro seen acc r hr; simpa [addRows] using hr
    | cons x rest ih =>
      intro seen acc r hr
      rw [addRows] at hr
      by_cases hmem : x.item_id ∈ seen
      · rw [if_pos hmem] at hr
        have := ih seen acc r hr
        simp only [List.mem_append, List.mem_cons] at this ⊢
        tauto
      · rw [if_neg hmem] at hr
        have := ih _ _ r hr
        simp only [List.mem_append, List.mem_cons] at this ⊢
        tauto
  intro r hr
  have h1 := key krows _ _ r hr
  simp only [List.mem_append] at h1 ⊢
  rcases h1 with h1 | h1
  · have h2 := key vrows [] [] r h1
    exact Or.inl (by simpa using h2)
  · exact Or.inr h1

lemma filter_id_single (l : List Row) (r : Row)
    (h : (l.map (·.item_id)).Nodup) (hr : r ∈ l) :
    l.filter (fun x => x.item_id == r.item_id) = [r] := by
  induction l with
  | nil => cases hr
  | cons a rest ih =>
    rw [List.map_cons, List.nodup_cons] at h
    rcases List.mem_cons.mp hr with rfl | hmem
    · have hrest0 : rest.filter (fun x => x.item_id == r.item_id) = [] := by
        apply List.filter_eq_nil_iff.mpr
        intro x hx hbeq
        have hxe : x.item_id = r.item_id := by simpa using hbeq
        exact h.1 (hxe ▸ List.mem_map_of_mem (·.item_id) hx)
      rw [List.filter_cons]
      simp [hrest0]
    · have hne : a.item_id ≠ r.item_id := fun he =>
        h.1 (he ▸ List.mem_map_of_mem (·.item_id) hmem)
      simp [List.filter_cons, hne, ih h.2 hmem]

/-- C4. Deduplication: with duplicate-free id columns on each side, the
merged list is the vector list followed by the unseen keyword rows in
order; an id present in both lists survives exactly once, as its
vector-list row; and no id occurs twice in the final results. -/
theorem dedupMerge (q : String) (lim : ℕ) (vrows krows : List Row)
    (hv : (vrows.map (·.item_id)).Nodup) (hk : (krows.map (·.item_id)).Nodup) :
    mergeRows vrows krows =
      vrows ++ krows.filter (fun r => decide (r.item_id ∉ vrows.map (·.item_id))) ∧
    (∀ r ∈ vrows, ∀ r' ∈ krows, r'.item_id = r.item_id →
      (mergeRows vrows krows).filter (fun x => x.item_id == r.item_id) = [r]) ∧
    ∀ i, ((searchResults q vrows krows lim).map fun x => x.row.item_id).count i ≤ 1 := by
  have hmerge := mergeRows_eq vrows krows hv hk
  refine ⟨hmerge, ?_, ?_⟩
  · intro r hrv r' _ _
    rw [hmerge, List.filter_append, filter_id_single vrows r hv hrv]
    have hnil : (krows.filter fun x => decide (x.item_id ∉ vrows.map (·.item_id))).filter
        (fun x => x.item_id == r.item_id) = [] := by
      apply List.filter_eq_nil_iff.mpr
      intro x hx hbeq
      have hxid : x.item_id = r.item_id := by simpa using hbeq
      have hnotin : x.item_id ∉ vrows.map (·.item_id) := by
        have := (List.mem_filter.mp hx).2
        simpa using this
      exact hnotin (hxid ▸ List.mem_map_of_mem (·.item_id) hrv)
    rw [hnil]
    simp
  · intro i
    have hnodup : ((mergeRows vrows krows).map (·.item_id)).Nodup := by
      rw [hmerge, List.map_append]
      apply List.Nodup.append hv
      · have hsub : List.Sublist
            (krows.filter fun r => decide (r.item_id ∉ vrows.map (·.item_id))) krows :=
          List.filter_sublist _
        exact List.Nodup.sublist (hsub.map _) hk
      · intro a hav haf
        rcases List.mem_map.mp haf with ⟨x, hx, hxa⟩
        have := (List.mem_filter.mp hx).2
        rw [hxa] at this
        simp only [decide_eq_true_eq] at this
        exact this hav
    have hmap : (scoreRows q (mergeRows vrows krows)).map (fun x => x.row.item_id) =
        (mergeRows vrows krows).map (·.item_id) := by
      rw [scoreRows, List.map_map]
      rfl
    have hperm : ((sortScored (scoreRows q (mergeRows vrows krows))).map
        (fun x => x.row.item_id)).Perm ((mergeRows vrows krows).map (·.item_id)) := by
      rw [← hmap]
      exact (List.perm_insertionSort scoredLE _).map _
    have hcount1 : ((sortScored (scoreRows q (mergeRows vrows krows))).map
        (fun x => x.row.item_id)).count i ≤ 1 := by
      rw [hperm.count_eq]
      exact List.nodup_iff_count_le_one.mp hnodup i
    refine le_trans ?_ hcount1
    refine List.Sublist.count_le ?_ i
    refine List.Sublist.map _ ?_
    exact List.take_sublist _ _

lemma mem_searchResults (q : String) (vrows krows : List Row) (lim : ℕ) {x : Scored}
    (hx : x ∈ searchResults q vrows krows lim) :
    ∃ r ∈ vrows ++ krows, x = scoreRow q r := by
  have h1 : x ∈ sortScored (scoreRows q (mergeRows vrows krows)) :=
    (List.take_sublist _ _).mem hx
  have h2 : x ∈ scoreRows q (mergeRows vrows krows) :=
    (List.perm_insertionSort scoredLE _).mem_iff.mp h1
  rcases List.mem_map.mp h2 with ⟨r, hr, hxr⟩
  exact ⟨r, mergeRows_subset vrows krows r hr, hxr.symm⟩

/-- C5. When every candidate's semantic similarity lies in the unit
interval, every blended score in the response lies in the unit interval;
moreover the un-boosted combination never exceeds 0.85. -/
theorem blendedScoreBounds (q : String) (vrows krows : List Row) (lim : ℕ)
    (h : ∀ r ∈ vrows ++ krows, 0 ≤ r.similarity ∧ r.similarity ≤ 1) :
    (∀ x ∈ searchResults q vrows krows lim, 0 ≤ x.score ∧ x.score ≤ 1) ∧
    ∀ r ∈ vrows ++ krows,
      r.similarity * (7/10) + keywordScore q r.name * (3/10) ≤ 17/20 := by
  constructor
  · intro x hx
    rcases mem_searchResults q vrows krows lim hx with ⟨r, hr, rfl⟩
    rcases h r hr with ⟨h0, h1⟩
    exact ⟨combinedScore_nonneg q r.name h0, combinedScore_le_one q r.name h1⟩
  · intro r hr
    exact base_le_085 q r.name (h r hr).2

theorem boostPrecedence_witness :
    combinedScore "dr" (1/2) "x" < combinedScore "dr" (1/2) "drum" :=
  (boostPrecedence "dr" "drum" "x" (1/2) (by norm_num) (by norm_num)).1 rfl rfl rfl rfl

theorem sortTruncate_witness :
    List.Sublist
      [scoreRow "z" ⟨⟨1, "a", none, false, none, none, none, none, none⟩, 0⟩,
       scoreRow "z" ⟨⟨2, "a", none, false, none, none, none, none, none⟩, 0⟩]
      (sortScored (scoreRows "z" (mergeRows
        [⟨⟨1, "a", none, false, none, none, none, none, none⟩, 0⟩,
         ⟨⟨2, "a", none, false, none, none, none, none, none⟩, 0⟩] []))) :=
  (sortTruncate "z"
    [⟨⟨1, "a", none, false, none, none, none, none, none⟩, 0⟩,
     ⟨⟨2, "a", none, false, none, none, none, none, none⟩, 0⟩] [] 5).2.2.2.2
    _ _ (List.Sublist.refl _) (le_refl _)

theorem dedupMerge_witness :
    mergeRows [⟨⟨1, "a", none, false, none, none, none, none, none⟩, 0⟩]
        [⟨⟨1, "b", none, false, none, none, none, none, none⟩, 0⟩] =
      [⟨⟨1, "a", none, false, none, none, none, none, none⟩, 0⟩] ++
        [⟨⟨1, "b", none, false, none, none, none, none, none⟩, 0⟩].filter
          (fun r => decide (r.item_id ∉
            ([⟨⟨1, "a", none, false, none, none, none, none, none⟩, (0 : ℚ)⟩] :
              List Row).map (·.item_id))) :=
  (dedupMerge "q" 5 _ _ (by decide) (by decide)).1

theorem blendedScoreBounds_witness :
    0 ≤ (scoreRow "z" ⟨⟨1, "a", none, false, none, none, none, none, none⟩, 1⟩).score ∧
    (scoreRow "z" ⟨⟨1, "a", none, false, none, none, none, none, none⟩, 1⟩).score ≤ 1 :=
  (blendedScoreBounds "z" [⟨⟨1, "a", none, false, none, none, none, none, none⟩, 1⟩] [] 10
    (by
      intro r hr
      have hr0 : r = ⟨⟨1, "a", none, false, none, none, none, none, none⟩, 1⟩ := by
        simpa using hr
      subst hr0
      exact ⟨by norm_num, by norm_num⟩)).1
    _ (List.mem_singleton_self _)

/-! ### The ingestion cycle: basic facts about the store operations -/

lemma findItem_id {db : List StoredItem} {i : Int} {it : StoredItem}
    (h : findItem db i = some it) : it.item_id = i := by
  have := List.find?_some h
  simpa using this

lemma updItem_item_id (it : StoredItem) (e : ProcEntry) :
    (updItem it e).item_id = it.item_id := rfl

lemma newItem_item_id (e : ProcEntry) : (newItem e).item_id = e.fields.item_id := rfl

lemma findItem_cons (a : StoredItem) (rest : List StoredItem) (i : Int) :
    findItem (a :: rest) i = if a.item_id = i then some a else findItem rest i := by
  by_cases ha : a.item_id = i
  · have hb : (a.item_id == i) = true := by simpa using ha
    simp [findItem, List.find?, hb, ha]
  · have hb : (a.item_id == i) = false := by simpa using ha
    simp [findItem, List.find?, hb, ha]

lemma findItem_append_of_none {db : List StoredItem} {i : Int} (x : StoredItem)
    (h : findItem db i = none) :
    findItem (db ++ [x]) i = if x.item_id = i then some x else none := by
  induction db with
  | nil =>
    rw [List.nil_append, show ([x] : List StoredItem) = x :: [] from rfl, findItem_cons, h]
  | cons a rest ih =>
    rw [findItem_cons] at h
    by_cases ha : a.item_id = i
    · rw [if_pos ha] at h
      cases h
    · rw [if_neg ha] at h
      rw [List.cons_append, findItem_cons, if_neg ha]
      exact ih h

lemma findItem_append_of_some {db : List StoredItem} {i : Int} {v : StoredItem} (x : StoredItem)
    (h : findItem db i = some v) :
    findItem (db ++ [x]) i = some v := by
  induction db with
  | nil => simp [findItem, List.find?] at h
  | cons a rest ih =>
    rw [findItem_cons] at h
    rw [List.cons_append, findItem_cons]
    by_cases ha : a.item_id = i
    · rwa [if_pos ha] at h ⊢
    · rw [if_neg ha] at h ⊢
      exact ih h

lemma findItem_updateFirst_self {db : List StoredItem} {i : Int} {it : StoredItem}
    (f : StoredItem → StoredItem) (hf : ∀ y, (f y).item_id = y.item_id)
    (h : findItem db i = some it) :
    findItem (updateFirst db i f) i = some (f it) := by
  induction db with
  | nil => simp [findItem, List.find?] at h
  | cons a rest ih =>
    rw [findItem_cons] at h
    by_cases ha : a.item_id = i
    · rw [if_pos ha] at h
      cases h
      rw [updateFirst, if_pos ha, findItem_cons]
      rw [if_pos (by rw [hf it]; exact ha)]
    · rw [if_neg ha] at h
      rw [updateFirst, if_neg ha, findItem_cons, if_neg ha]
      exact ih h

lemma findItem_updateFirst_ne {db : List StoredItem} {i j : Int}
    (f : StoredItem → StoredItem) (hf : ∀ y, (f y).item_id = y.item_id) (hne : j ≠ i) :
    findItem (updateFirst db i f) j = findItem db j := by
  induction db with
  | nil => rfl
  | cons a rest ih =>
    by_cases ha : a.item_id = i
    · rw [updateFirst, if_pos ha, findItem_cons, findItem_cons]
      have hfa : ¬(f a).item_id = j := by rw [hf a, ha]; exact fun he => hne he.symm
      have haj : ¬a.item_id = j := by rw [ha]; exact fun he => hne he.symm
      rw [if_neg hfa, if_neg haj]
    · rw [updateFirst, if_neg ha, findItem_cons, findItem_cons]
      by_cases haj : a.item_id = j
      · rw [if_pos haj, if_pos haj]
      · rw [if_neg haj, if_neg haj]
        exact ih

lemma updateFirst_eq_self {db : List StoredItem} {i : Int} {it : StoredItem}
    (f : StoredItem → StoredItem) (h : findItem db i = some it) (hfix : f it = it) :
    updateFirst db i f = db := by
  induction db with
  | nil => rfl
  | cons a rest ih =>
    rw [findItem_cons] at h
    by_cases ha : a.item_id = i
    · rw [if_pos ha] at h
      cases h
      rw [updateFirst, if_pos ha, hfix]
    · rw [if_neg ha] at h
      rw [updateFirst, if_neg ha, ih h]

lemma applyEntry_find_ne (db : List StoredItem) (e : ProcEntry) {j : Int}
    (hne : j ≠ e.fields.item_id) :
    findItem (applyEntry db e) j = findItem db j := by
  cases he : e.existing with
  | some it =>
    rw [applyEntry, he]
    exact findItem_updateFirst_ne _ (fun y => rfl) hne
  | none =>
    rw [applyEntry, he]
    cases hdb : findItem db j with
    | some v => exact findItem_append_of_some _ hdb
    | none =>
      rw [findItem_append_of_none _ hdb]
      rw [if_neg]
      rw [newItem_item_id]
      exact fun he2 => hne he2.symm

lemma applyEntry_find_self (db : List StoredItem) (e : ProcEntry)
    (hex : findItem db e.fields.item_id = e.existing) :
    findItem (applyEntry db e) e.fields.item_id = some (finalItem e) := by
  cases he : e.existing with
  | some it =>
    rw [applyEntry, he, finalItem, he]
    rw [he] at hex
    exact findItem_updateFirst_self _ (fun y => rfl) hex
  | none =>
    rw [applyEntry, he, finalItem, he]
    rw [he] at hex
    rw [findItem_append_of_none _ hex, if_pos (newItem_item_id e)]

lemma foldl_apply_untouched (entries : List ProcEntry) (db : List StoredItem) (i : Int)
    (h : ∀ e ∈ entries, e.fields.item_id ≠ i) :
    findItem (entries.foldl applyEntry db) i = findItem db i := by
  induction entries generalizing db with
  | nil => rfl
  | cons e0 rest ih =>
    rw [List.foldl_cons]
    have hne0 : i ≠ e0.fields.item_id := fun he => h e0 (List.mem_cons_self _ _) he.symm
    rw [ih (applyEntry db e0) (fun e he => h e (List.mem_cons_of_mem _ he))]
    exact applyEntry_find_ne db e0 hne0

/-- After the persisting fold, each processed entry's id maps to exactly
the row the second pass produced for it. -/
lemma foldl_apply_find (entries : List ProcEntry) (db : List StoredItem)
    (hids : (entries.map (fun e => e.fields.item_id)).Nodup)
    (hex : ∀ e ∈ entries, findItem db e.fields.item_id = e.existing) :
    ∀ e ∈ entries,
      findItem (entries.foldl applyEntry db) e.fields.item_id = some (finalItem e) := by
  induction entries generalizing db with
  | nil => intro e he; cases he
  | cons e0 rest ih =>
    rw [List.map_cons, List.nodup_cons] at hids
    intro e he
    rw [List.foldl_cons]
    rcases List.mem_cons.mp he with rfl | hmem
    · rw [foldl_apply_untouched rest (applyEntry db e) e.fields.item_id ?hrest]
      case hrest =>
        intro e' he' hco
        exact hids.1 (hco ▸ List.mem_map_of_mem (fun x => x.fields.item_id) he')
      exact applyEntry_find_self db e (hex e (List.mem_cons_self _ _))
    · refine ih (applyEntry db e0) hids.2 ?_ e hmem
      intro e' he'
      have hne : e'.fields.item_id ≠ e0.fields.item_id := by
        intro hco
        exact hids.1 (hco ▸ List.mem_map_of_mem (fun x => x.fields.item_id) he')
      rw [applyEntry_find_ne db e0 hne]
      exact hex e' (List.mem_cons_of_mem _ he')

lemma finalItem_spec (e : ProcEntry)
    (h : ∀ it, e.existing = some it → it.item_id = e.fields.item_id) :
    (finalItem e).toItemData = e.fields ∧ (finalItem e).embedding = embResult e := by
  cases he : e.existing with
  | none =>
    constructor
    · rw [finalItem, he, newItem]
    · rw [finalItem, he, newItem, embResult, he]
  | some it =>
    have hid := h it he
    constructor
    · simp [finalItem, he, updItem, hid]
    · cases hm : e.emb <;> simp [finalItem, he, updItem, embResult, hm]

lemma firstPass_fields_price (db : List StoredItem) (prices : List (Int × PriceInfo))
    (mapping : List MapEntry) :
    (firstPass db prices mapping).map (fun e => (e.fields, e.price)) =
      pricedList mapping prices := by
  rw [firstPass, pricedList, List.map_filterMap]
  congr 1
  funext m
  cases hp : pricedOf prices m <;> simp [procOf, hp]

lemma firstPass_mem {db : List StoredItem} {prices : List (Int × PriceInfo)}
    {mapping : List MapEntry} {e : ProcEntry} (he : e ∈ firstPass db prices mapping) :
    e.existing = findItem db e.fields.item_id ∧ e.needsEmb = needsEmbOf db e.fields ∧
    e.emb = none ∧ (e.fields, e.price) ∈ pricedList mapping prices := by
  rcases List.mem_filterMap.mp he with ⟨m, hm, hpm⟩
  rw [procOf] at hpm
  cases hp : pricedOf prices m with
  | none => rw [hp] at hpm; cases hpm
  | some fp =>
    rw [hp] at hpm
    rw [Option.map_some'] at hpm
    cases hpm
    exact ⟨rfl, rfl, rfl, List.mem_filterMap.mpr ⟨m, hm, hp⟩⟩

lemma assignEmb_map_core (batchOk : ℕ → Bool) (embedFn : String → List ℚ)
    (es : List ProcEntry) :
    ∀ k : ℕ, (assignEmb batchOk embedFn k es).map procCore = es.map procCore := by
  induction es with
  | nil => intro k; rfl
  | cons e es ih =>
    intro k
    by_cases hne : e.needsEmb = true
    · rw [assignEmb, if_pos hne, List.map_cons, List.map_cons, ih]
      rfl
    · rw [assignEmb, if_neg hne, List.map_cons, List.map_cons, ih]

lemma assignEmb_mem {batchOk : ℕ → Bool} {embedFn : String → List ℚ}
    {es : List ProcEntry} {e' : ProcEntry} :
    ∀ {k : ℕ}, e' ∈ assignEmb batchOk embedFn k es →
      ∃ e ∈ es, procCore e' = procCore e ∧
        (e.needsEmb = false → e'.emb = e.emb) := by
  induction es with
  | nil => intro k h; cases h
  | cons e es ih =>
    intro k h
    rw [assignEmb] at h
    by_cases hne : e.needsEmb = true
    · rw [if_pos hne] at h
      rcases List.mem_cons.mp h with rfl | hmem
      · exact ⟨e, List.mem_cons_self _ _, rfl, fun hf => by rw [hf] at hne; cases hne⟩
      · rcases ih hmem with ⟨e0, he0, hcore, hemb⟩
        exact ⟨e0, List.mem_cons_of_mem _ he0, hcore, hemb⟩
    · rw [if_neg hne] at h
      rcases List.mem_cons.mp h with he' | hmem
      · exact ⟨e, List.mem_cons_self _ _, by rw [he'], fun _ => by rw [he']⟩
      · rcases ih hmem with ⟨e0, he0, hcore, hemb⟩
        exact ⟨e0, List.mem_cons_of_mem _ he0, hcore, hemb⟩

lemma assignEmb_all_fail {batchOk : ℕ → Bool} {embedFn : String → List ℚ}
    (hfail : ∀ i, batchOk i = false) (es : List ProcEntry) :
    ∀ k : ℕ, ∀ e' ∈ assignEmb batchOk embedFn k es,
      e'.needsEmb = true → e'.emb = some none := by
  induction es with
  | nil => intro k e' h; cases h
  | cons e es ih =>
    intro k e' h hne'
    rw [assignEmb] at h
    by_cases hne : e.needsEmb = true
    · rw [if_pos hne] at h
      rcases List.mem_cons.mp h with rfl | hmem
      · simp [embFor, hfail]
      · exact ih (k + 1) e' hmem hne'
    · rw [if_neg hne] at h
      rcases List.mem_cons.mp h with rfl | hmem
      · exact absurd hne' hne
      · exact ih k e' hmem hne'

lemma assignEmb_emb_none {batchOk : ℕ → Bool} {embedFn : String → List ℚ}
    {es : List ProcEntry} (hes : ∀ e ∈ es, e.emb = none) :
    ∀ k : ℕ, ∀ e' ∈ assignEmb batchOk embedFn k es, e'.emb = some none →
      e'.needsEmb = true ∧ ∃ p, batchOk (p / 500) = false := by
  induction es with
  | nil => intro k e' h; cases h
  | cons e es ih =>
    have hes' : ∀ x ∈ es, x.emb = none := fun x hx => hes x (List.mem_cons_of_mem _ hx)
    intro k e' h hemb
    rw [assignEmb] at h
    by_cases hne : e.needsEmb = true
    · rw [if_pos hne] at h
      rcases List.mem_cons.mp h with rfl | hmem
      · refine ⟨hne, k, ?_⟩
        have hfor : embFor batchOk embedFn k (createSearchableText e.fields) = none :=
          Option.some.inj hemb
        rw [embFor] at hfor
        by_cases hb : batchOk (k / 500) = true
        · rw [if_pos hb] at hfor; cases hfor
        · simpa using hb
      · exact ih hes' (k + 1) e' hmem hemb
    · rw [if_neg hne] at h
      rcases List.mem_cons.mp h with rfl | hmem
      · rw [hes e' (List.mem_cons_self _ _)] at hemb; cases hemb
      · exact ih hes' k e' hmem hemb

lemma assignEmb_no_needs {batchOk : ℕ → Bool} {embedFn : String → List ℚ}
    {es : List ProcEntry} (h : ∀ e ∈ es, e.needsEmb = false) :
    ∀ k : ℕ, assignEmb batchOk embedFn k es = es := by
  induction es with
  | nil => intro k; rfl
  | cons e es ih =>
    intro k
    have hne : ¬e.needsEmb = true := by
      rw [h e (List.mem_cons_self _ _)]; exact Bool.false_ne_true
    rw [assignEmb, if_neg hne, ih (fun x hx => h x (List.mem_cons_of_mem _ hx)) k]

lemma assignEmb_ids (batchOk : ℕ → Bool) (embedFn : String → List ℚ)
    (es : List ProcEntry) (k : ℕ) :
    (assignEmb batchOk embedFn k es).map (fun e => e.fields.item_id) =
      es.map (fun e => e.fields.item_id) := by
  have h := assignEmb_map_core batchOk embedFn es k
  calc (assignEmb batchOk embedFn k es).map (fun e => e.fields.item_id)
      = ((assignEmb batchOk embedFn k es).map procCore).map (fun c => c.1.item_id) := by
        rw [List.map_map]; rfl
    _ = (es.map procCore).map (fun c => c.1.item_id) := by rw [h]
    _ = es.map (fun e => e.fields.item_id) := by rw [List.map_map]; rfl

lemma firstPass_ids (db : List StoredItem) (prices : List (Int × PriceInfo))
    (mapping : List MapEntry) :
    (firstPass db prices mapping).map (fun e => e.fields.item_id) =
      pricedIds mapping prices := by
  rw [pricedIds, ← firstPass_fields_price db prices mapping, List.map_map]
  rfl

/-- The central cycle lemma: with duplicate-free priced ids, every
processed entry's id maps, after the cycle, to the row the entry
produced. -/
lemma runCycle_find (batchOk : ℕ → Bool) (embedFn : String → List ℚ)
    (mapping : List MapEntry) (prices : List (Int × PriceInfo)) (db : List StoredItem)
    (hids : (pricedIds mapping prices).Nodup) :
    ∀ e ∈ assignEmb batchOk embedFn 0 (firstPass db prices mapping),
      findItem ((runCycle batchOk embedFn mapping prices db).1) e.fields.item_id
        = some (finalItem e) := by
  have h1 : ((assignEmb batchOk embedFn 0 (firstPass db prices mapping)).map
      (fun e => e.fields.item_id)).Nodup := by
    rw [assignEmb_ids, firstPass_ids]
    exact hids
  have hex : ∀ e ∈ assignEmb batchOk embedFn 0 (firstPass db prices mapping),
      findItem db e.fields.item_id = e.existing := by
    intro e he
    rcases assignEmb_mem he with ⟨e0, he0, hcore, _⟩
    have hf : e.fields = e0.fields := congrArg (fun c => c.1) hcore
    have hx : e.existing = e0.existing := congrArg (fun c => c.2.2.1) hcore
    rw [hf, hx, (firstPass_mem he0).1]
  exact foldl_apply_find _ db h1 hex

lemma pricedOf_nil_prices (m : MapEntry) : pricedOf [] m = none := by
  cases hm : m.id with
  | none => simp [pricedOf, hm]
  | some i =>
    by_cases hi : i = 0 <;> simp [pricedOf, hm, hi, lookupPrice, List.find?]

lemma pricedList_nil_prices (mapping : List MapEntry) : pricedList mapping [] = [] := by
  rw [pricedList, List.filterMap_eq_nil_iff]
  intro m _
  exact pricedOf_nil_prices m

lemma firstPass_nil_prices (db : List StoredItem) (mapping : List MapEntry) :
    firstPass db [] mapping = [] := by
  rw [firstPass, List.filterMap_eq_nil_iff]
  intro m _
  rw [procOf, pricedOf_nil_prices m]
  rfl

lemma foldl_fixed {α β : Type} (g : β → α → β) (b : β) (es : List α)
    (h : ∀ e ∈ es, g b e = b) : es.foldl g b = b := by
  induction es with
  | nil => rfl
  | cons e es ih =>
    rw [List.foldl_cons, h e (List.mem_cons_self _ _)]
    exact ih fun x hx => h x (List.mem_cons_of_mem _ hx)

lemma runCycle_rows (bk : ℕ → Bool) (ef : String → List ℚ) (mapping : List MapEntry)
    (prices : List (Int × PriceInfo)) (db : List StoredItem) :
    (runCycle bk ef mapping prices db).2 =
      (pricedList mapping prices).map
        (fun fp => { item_id := fp.1.item_id, high_price := fp.2.high,
                     low_price := fp.2.low : PriceRow }) := by
  show (assignEmb bk ef 0 (firstPass db prices mapping)).map priceRow = _
  calc (assignEmb bk ef 0 (firstPass db prices mapping)).map priceRow
      = ((assignEmb bk ef 0 (firstPass db prices mapping)).map procCore).map
          (fun c => { item_id := c.1.item_id, high_price := c.2.1.high,
                      low_price := c.2.1.low : PriceRow }) := by
        rw [List.map_map]; rfl
    _ = ((firstPass db prices mapping).map procCore).map
          (fun c => { item_id := c.1.item_id, high_price := c.2.1.high,
                      low_price := c.2.1.low : PriceRow }) := by
        rw [assignEmb_map_core]
    _ = ((firstPass db prices mapping).map (fun e => (e.fields, e.price))).map
          (fun fp => { item_id := fp.1.item_id, high_price := fp.2.high,
                       low_price := fp.2.low : PriceRow }) := by
        rw [List.map_map, List.map_map]; rfl
    _ = _ := by rw [firstPass_fields_price]

/-- After one cycle, every priced entry's id is stored with exactly the
entry's fields. -/
lemma runCycle_agrees (bk : ℕ → Bool) (ef : String → List ℚ) (mapping : List MapEntry)
    (prices : List (Int × PriceInfo)) (db : List StoredItem)
    (hids : (pricedIds mapping prices).Nodup) :
    ∀ fp ∈ pricedList mapping prices,
      ∃ r, findItem ((runCycle bk ef mapping prices db).1) fp.1.item_id = some r ∧
        r.toItemData = fp.1 := by
  intro fp hfp
  have h1 : fp ∈ (firstPass db prices mapping).map (fun e => (e.fields, e.price)) := by
    rw [firstPass_fields_price]; exact hfp
  rcases List.mem_map.mp h1 with ⟨e0, he0, heq⟩
  have h2 : procCore e0 ∈
      (assignEmb bk ef 0 (firstPass db prices mapping)).map procCore := by
    rw [assignEmb_map_core]
    exact List.mem_map_of_mem _ he0
  rcases List.mem_map.mp h2 with ⟨e1, he1, hcoreq⟩
  have hf1 : e1.fields = e0.fields := congrArg (fun c => c.1) hcoreq
  have hx1 : e1.existing = e0.existing := congrArg (fun c => c.2.2.1) hcoreq
  have hff : e0.fields = fp.1 := congrArg Prod.fst heq
  have hfind := runCycle_find bk ef mapping prices db hids e1 he1
  have hexid : ∀ it, e1.existing = some it → it.item_id = e1.fields.item_id := by
    intro it hit
    rw [hx1, (firstPass_mem he0).1] at hit
    have := findItem_id hit
    rw [this, hf1]
  have hspec := finalItem_spec e1 hexid
  refine ⟨finalItem e1, ?_, ?_⟩
  · rw [← hff, ← hf1]
    exact hfind
  · rw [hspec.1, hf1, hff]

/-- C6. Ingestion idempotence: a second cycle over identical upstream
data changes no stored item (and flags no entry for re-embedding, so no
embedding is regenerated), while appending the same price rows again —
exactly one per priced entry. -/
theorem ingestIdempotent (bk1 bk2 : ℕ → Bool) (ef1 ef2 : String → List ℚ)
    (mapping : List MapEntry) (prices : List (Int × PriceInfo)) (db0 : List StoredItem)
    (hids : (pricedIds mapping prices).Nodup) :
    (updateItemsAndPrices bk2 ef2 mapping prices
        (updateItemsAndPrices bk1 ef1 mapping prices db0).1).1
      = (updateItemsAndPrices bk1 ef1 mapping prices db0).1 ∧
    (∀ e ∈ firstPass (updateItemsAndPrices bk1 ef1 mapping prices db0).1 prices mapping,
      e.needsEmb = false) ∧
    (updateItemsAndPrices bk2 ef2 mapping prices
        (updateItemsAndPrices bk1 ef1 mapping prices db0).1).2
      = (updateItemsAndPrices bk1 ef1 mapping prices db0).2 ∧
    (updateItemsAndPrices bk2 ef2 mapping prices
        (updateItemsAndPrices bk1 ef1 mapping prices db0).1).2
      = (pricedList mapping prices).map
          (fun fp => { item_id := fp.1.item_id, high_price := fp.2.high,
                       low_price := fp.2.low : PriceRow }) := by
  by_cases hm : mapping = []
  · subst hm
    refine ⟨by simp [updateItemsAndPrices], ?_, by simp [updateItemsAndPrices],
      by simp [updateItemsAndPrices, pricedList]⟩
    intro e he
    simp [firstPass] at he
  by_cases hp : prices = []
  · subst hp
    have hguard : ∀ (bk : ℕ → Bool) (ef : String → List ℚ) (db : List StoredItem),
        updateItemsAndPrices bk ef mapping [] db = (db, []) := by
      intro bk ef db
      rw [updateItemsAndPrices, if_neg hm]
      rfl
    refine ⟨by simp [hguard], ?_, by simp [hguard],
      by simp [hguard, pricedList_nil_prices]⟩
    intro e he
    rw [hguard, firstPass_nil_prices] at he
    cases he
  · have hguard : ∀ (bk : ℕ → Bool) (ef : String → List ℚ) (db : List StoredItem),
        updateItemsAndPrices bk ef mapping prices db = runCycle bk ef mapping prices db := by
      intro bk ef db
      rw [updateItemsAndPrices, if_neg hm, if_neg hp]
    simp only [hguard]
    have hagree := runCycle_agrees bk1 ef1 mapping prices db0 hids
    -- every entry of the second first-pass needs no embedding
    have hne2 : ∀ e ∈ firstPass (runCycle bk1 ef1 mapping prices db0).1 prices mapping,
        e.needsEmb = false := by
      intro e he
      have hfp := firstPass_mem he
      rcases hagree _ hfp.2.2.2 with ⟨r, hr, hrt⟩
      have hrt' : r.toItemData = e.fields := hrt
      have hn : r.toItemData.name = e.fields.name := congrArg ItemData.name hrt'
      have hx : r.toItemData.examine = e.fields.examine := congrArg ItemData.examine hrt'
      rw [hfp.2.1]
      unfold needsEmbOf
      rw [hr]
      simp [hn, hx]
    -- the embedding phase of the second cycle is the identity
    have hE2 : assignEmb bk2 ef2 0
        (firstPass (runCycle bk1 ef1 mapping prices db0).1 prices mapping) =
        firstPass (runCycle bk1 ef1 mapping prices db0).1 prices mapping :=
      assignEmb_no_needs hne2 0
    -- the persisting phase of the second cycle fixes the store
    have hfix : ∀ e ∈ firstPass (runCycle bk1 ef1 mapping prices db0).1 prices mapping,
        applyEntry (runCycle bk1 ef1 mapping prices db0).1 e =
          (runCycle bk1 ef1 mapping prices db0).1 := by
      intro e he
      have hfp := firstPass_mem he
      rcases hagree _ hfp.2.2.2 with ⟨r, hr, hrt⟩
      have hrt' : r.toItemData = e.fields := hrt
      have hex : e.existing = some r := by rw [hfp.1, hr]
      have happ : applyEntry (runCycle bk1 ef1 mapping prices db0).1 e =
          updateFirst (runCycle bk1 ef1 mapping prices db0).1 e.fields.item_id
            fun it => updItem it e := by
        unfold applyEntry
        rw [hex]
      have hupd : updItem r e = r := by
        unfold updItem
        rw [hfp.2.2.1, ← hrt']
      rw [happ]
      exact updateFirst_eq_self _ hr hupd
    have hdb2 : (runCycle bk2 ef2 mapping prices
        (runCycle bk1 ef1 mapping prices db0).1).1 =
        (runCycle bk1 ef1 mapping prices db0).1 := by
      show (assignEmb bk2 ef2 0 _).foldl applyEntry _ = _
      rw [hE2]
      exact foldl_fixed _ _ _ hfix
    refine ⟨hdb2, hne2, ?_, runCycle_rows bk2 ef2 mapping prices _⟩
    rw [runCycle_rows, runCycle_rows]

/-- C7 (amended). When an entry's batch failed (its `embedding` key holds
NULL), the entry needed re-embedding because some batch really failed,
and after the cycle its stored row carries the updated fields with a
NULL embedding — the prior stored vector, when there was one, is
discarded rather than kept. Conversely, when every batch fails, every
entry needing re-embedding ends up with the NULL embedding key. -/
theorem staleEmbeddingOverwrite (batchOk : ℕ → Bool) (embedFn : String → List ℚ)
    (mapping : List MapEntry) (prices : List (Int × PriceInfo)) (db : List StoredItem)
    (hids : (pricedIds mapping prices).Nodup) :
    (∀ e ∈ assignEmb batchOk embedFn 0 (firstPass db prices mapping),
      e.emb = some none →
        (e.needsEmb = true ∧ ∃ p, batchOk (p / 500) = false) ∧
        ∃ r, findItem ((runCycle batchOk embedFn mapping prices db).1) e.fields.item_id
            = some r ∧ r.toItemData = e.fields ∧ r.embedding = none) ∧
    ((∀ i, batchOk i = false) →
      ∀ e ∈ assignEmb batchOk embedFn 0 (firstPass db prices mapping),
        e.needsEmb = true → e.emb = some none) := by
  constructor
  · intro e he hemb
    have hes : ∀ x ∈ firstPass db prices mapping, x.emb = none :=
      fun x hx => (firstPass_mem hx).2.2.1
    refine ⟨assignEmb_emb_none hes 0 e he hemb, ?_⟩
    have hfind := runCycle_find batchOk embedFn mapping prices db hids e he
    have hexid : ∀ it, e.existing = some it → it.item_id = e.fields.item_id := by
      intro it hit
      rcases assignEmb_mem he with ⟨e0, he0, hcore, _⟩
      have hf : e.fields = e0.fields := congrArg (fun c => c.1) hcore
      have hx : e.existing = e0.existing := congrArg (fun c => c.2.2.1) hcore
      rw [hx, (firstPass_mem he0).1] at hit
      rw [findItem_id hit, hf]
    have hspec := finalItem_spec e hexid
    refine ⟨finalItem e, hfind, hspec.1, ?_⟩
    rw [hspec.2]
    cases hex0 : e.existing <;> simp [embResult, hex0, hemb]
  · intro hfail e he hne
    exact assignEmb_all_fail hfail _ 0 e he hne

theorem staleEmbeddingOverwrite_counterexample :
    ((updateItemsAndPrices (fun _ => false) (fun _ => [])
        [⟨some 7, "New", none, false, none, none, none, none, none⟩]
        [(7, ⟨some 5, none⟩)]
        [⟨⟨7, "Old", none, false, none, none, none, none, none⟩, some []⟩]).1.map
      (fun it => it.embedding)) = [none] ∧
    ((([⟨⟨7, "Old", none, false, none, none, none, none, none⟩, some []⟩] :
        List StoredItem)).map (fun it => it.embedding)) = [some []] ∧
    ¬ ((updateItemsAndPrices (fun _ => false) (fun _ => [])
        [⟨some 7, "New", none, false, none, none, none, none, none⟩]
        [(7, ⟨some 5, none⟩)]
        [⟨⟨7, "Old", none, false, none, none, none, none, none⟩, some []⟩]).1.map
      (fun it => it.embedding)) =
      ((([⟨⟨7, "Old", none, false, none, none, none, none, none⟩, some []⟩] :
        List StoredItem)).map (fun it => it.embedding)) := by
  refine ⟨rfl, rfl, ?_⟩
  intro h
  have h2 : ([none] : List (Option (List ℚ))) = [some []] := h
  simp at h2

theorem staleEmbeddingOverwrite_witness :
    ∃ r, findItem ((runCycle (fun _ => false) (fun _ => [])
        [⟨some 7, "New", none, false, none, none, none, none, none⟩]
        [(7, ⟨some 5, none⟩)]
        [⟨⟨7, "Old", none, false, none, none, none, none, none⟩, some []⟩]).1) 7
      = some r ∧
      r.toItemData = ⟨7, "New", none, false, none, none, none, none, none⟩ ∧
      r.embedding = none :=
  ((staleEmbeddingOverwrite (fun _ => false) (fun _ => [])
      [⟨some 7, "New", none, false, none, none, none, none, none⟩]
      [(7, ⟨some 5, none⟩)]
      [⟨⟨7, "Old", none, false, none, none, none, none, none⟩, some []⟩]
      (by decide)).1
    ⟨⟨7, "New", none, false, none, none, none, none, none⟩, ⟨some 5, none⟩,
      some ⟨⟨7, "Old", none, false, none, none, none, none, none⟩, some []⟩, true, some none⟩
    (by decide) rfl).2

/-- C8. An empty catalog fetch or an empty price fetch aborts the cycle
with no store modification: the item table is unchanged and no price
rows are appended. -/
theorem emptyFetchAborts (batchOk : ℕ → Bool) (embedFn : String → List ℚ)
    (mapping : List MapEntry) (prices : List (Int × PriceInfo)) (db : List StoredItem)
    (h : mapping = [] ∨ prices = []) :
    updateItemsAndPrices batchOk embedFn mapping prices db = (db, []) := by
  rcases h with h | h
  · rw [updateItemsAndPrices, if_pos h]
  · rw [updateItemsAndPrices]
    by_cases hm : mapping = []
    · rw [if_pos hm]
    · rw [if_neg hm, if_pos h]

theorem emptyFetchAborts_witness :
    updateItemsAndPrices (fun _ => true) (fun _ => [])
      [⟨some 1, "a", none, false, none, none, none, none, none⟩] [] [] = ([], []) :=
  emptyFetchAborts _ _ _ [] [] (Or.inr rfl)

theorem ingestIdempotent_witness :
    (updateItemsAndPrices (fun _ => true) (fun _ => [])
        [⟨some 1, "a", none, false, none, none, none, none, none⟩] [(1, ⟨some 2, none⟩)]
        ((updateItemsAndPrices (fun _ => true) (fun _ => [])
          [⟨some 1, "a", none, false, none, none, none, none, none⟩] [(1, ⟨some 2, none⟩)]
          []).1)).1
      = (updateItemsAndPrices (fun _ => true) (fun _ => [])
          [⟨some 1, "a", none, false, none, none, none, none, none⟩] [(1, ⟨some 2, none⟩)]
          []).1 :=
  (ingestIdempotent (fun _ => true) (fun _ => true) (fun _ => []) (fun _ => [])
    [⟨some 1, "a", none, false, none, none, none, none, none⟩] [(1, ⟨some 2, none⟩)] []
    (by decide)).1

/-- C9. `format_query` behaves as specified: trim, then re-wrap under the
recognized case-insensitive prefix (falling back to the empty item-name
form on a bare prefix), else wrap the whole trimmed query as an item
name; in particular on the three spec examples. -/
theorem formatQuery_spec :
    (∀ q, formatQueryForEmbedding q = specFormatQuery q) ∧
    formatQueryForEmbedding "  dragon longsword  " = "Item Name: dragon longsword" ∧
    formatQueryForEmbedding "Description:" = "Item Name: " ∧
    formatQueryForEmbedding "item name: foo" = "Item Name: foo" := by
  refine ⟨?_, rfl, rfl, rfl⟩
  intro q
  have h12 : "description:".length = 12 := rfl
  have h10 : "item name:".length = 10 := rfl
  simp only [formatQueryForEmbedding, specFormatQuery, h12, h10]
  split_ifs with h1 h2 h3 h4 h5 <;> first | rfl | (exfalso; tauto)

/-- C10. Both candidate queries filter on a non-NULL embedding, so every
search result corresponds to a stored item with an embedding; an item
stored without a vector can never be returned, by either path. -/
theorem resultsHaveEmbedding (dist : List ℚ → List ℚ → ℚ) (qEmb : List ℚ)
    (db : List StoredItem) (membersOnly : Option Bool) (q : String) (lim : ℕ) :
    ∀ x ∈ fullSearch dist qEmb db membersOnly q lim,
      ∃ it ∈ db, it.item_id = x.row.item_id ∧ it.embedding.isSome = true := by
  intro x hx
  rcases mem_searchResults q _ _ lim hx with ⟨r, hr, rfl⟩
  rw [List.mem_append] at hr
  have hmem : ∃ it ∈ db, rowOfItem dist qEmb it = some r := by
    rcases hr with hr | hr
    · have h2 : r ∈ ((db.filterMap fun it =>
          if membersOk membersOnly it then rowOfItem dist qEmb it else none).insertionSort
            rowSimGE) := (List.take_sublist _ _).mem hr
      have h1 : r ∈ db.filterMap fun it =>
          if membersOk membersOnly it then rowOfItem dist qEmb it else none :=
        (List.perm_insertionSort rowSimGE _).mem_iff.mp h2
      rcases List.mem_filterMap.mp h1 with ⟨it, hit, hite⟩
      by_cases hm : membersOk membersOnly it = true
      · rw [if_pos hm] at hite
        exact ⟨it, hit, hite⟩
      · rw [if_neg hm] at hite
        cases hite
    · rw [keywordCandidates] at hr
      by_cases hq : queryWords q = []
      · rw [if_pos hq] at hr
        cases hr
      · rw [if_neg hq] at hr
        have h1 := (List.take_sublist _ _).mem hr
        rcases List.mem_filterMap.mp h1 with ⟨it, hit, hite⟩
        by_cases hc : (membersOk membersOnly it &&
            (queryWords q).all fun w => strIn w (pyLower it.name)) = true
        · rw [if_pos hc] at hite
          exact ⟨it, hit, hite⟩
        · rw [if_neg hc] at hite
          cases hite
  rcases hmem with ⟨it, hit, hite⟩
  cases hemb : it.embedding with
  | none =>
    rw [rowOfItem, hemb] at hite
    cases hite
  | some v =>
    rw [rowOfItem, hemb, Option.map_some'] at hite
    cases hite
    exact ⟨it, hit, rfl, by rw [hemb]; rfl⟩

theorem resultsHaveEmbedding_witness :
    ∃ it ∈ ([⟨⟨3, "w", none, false, none, none, none, none, none⟩, some []⟩] :
        List StoredItem),
      it.item_id = (scoreRow "z"
        ⟨⟨3, "w", none, false, none, none, none, none, none⟩, 1 - 0⟩).row.item_id ∧
      it.embedding.isSome = true :=
  resultsHaveEmbedding (fun _ _ => 0) [] _ none "z" 10
    (scoreRow "z" ⟨⟨3, "w", none, false, none, none, none, none, none⟩, 1 - 0⟩)
    (List.mem_singleton_self _)
